import Mathlib

/-!
Shallow embedding of the datadog-trace-agent core pipeline
(`model/span.go`, `agent/concentrator.go` — which also holds the HTTP
receiver — and the agent orchestrator file), together with theorems
settling the specification claims about it.

Conventions of the embedding:
* Go `uint64` identifiers (`TraceID`, `SpanID`, `ParentID`) are modelled as
  `Nat`; the modelled code only compares them for equality, so wraparound
  is irrelevant.
* Go `int64` nanosecond timestamps are modelled as `Int`; the modelled
  code adds, subtracts and compares them with magnitudes far below `2^63`,
  so two's-complement wraparound is never reached and is not modelled.
* Go `float64` metric values are carried as opaque IEEE-754 bit patterns
  (`Nat`); no modelled code interprets them.
* Repository code that lives outside the embedded files (span
  normalization, resource quantization, root lookup, sublayer
  computation, stats-bucket internals, wire-format decoding) is taken as
  a parameter: every theorem is universally quantified over it, so the
  results hold for any implementation of those collaborators.
* Go maps are modelled as association lists; Go map iteration order is
  unspecified, and no verified claim depends on the order picked here.
* Effects (logging, statsd, channel sends) are modelled by the values the
  code would send; a Go `panic` is modelled by `Option.none`.
-/

/-- Span mirrors `model.Span` (`model/span.go`).  The Go field `Type` is
renamed `SpanType` because `Type` is a Lean universe keyword; `Meta` and
`Metrics` maps are association lists, metric values being uninterpreted
IEEE-754 bit patterns. -/
structure Span where
  Service : String
  Name : String
  Resource : String
  TraceID : Nat
  SpanID : Nat
  Start : Int
  Duration : Int
  Error : Int
  Meta : List (String × String)
  Metrics : List (String × Nat)
  ParentID : Nat
  SpanType : String
  deriving Repr, DecidableEq

instance : Inhabited Span :=
  ⟨⟨"", "", "", 0, 0, 0, 0, 0, [], [], 0, ""⟩⟩

/-- `Span.End` mirrors `model.Span.End`: `s.Start + s.Duration`. -/
def Span.End (s : Span) : Int :=
  s.Start + s.Duration

/-- A trace is a sequence of spans, as Go's `model.Trace = []Span`. -/
def Trace : Type := List Span

instance : Inhabited Trace := ⟨([] : List Span)⟩

/-- processedTrace mirrors the `processedTrace` struct of the agent file.
Go's `Root *model.Span` is `Option Span` (`none` = nil) and the
`Sublayers []model.SublayerValue` slice is `Option (List σ)` so that a
nil slice (`none`) is distinguished from any non-nil one; the sublayer
value type `σ` is a parameter since `model.SublayerValue` lives outside
the embedded files. -/
structure ProcessedTrace (σ : Type) where
  Trace : List Span
  Root : Option Span
  Env : String
  Sublayers : Option (List σ)

/-- Concentrator mirrors the `Concentrator` struct: sorted aggregator
names, bucket size in nanoseconds, and the bucket map (an association
list keyed by bucket start).  The stats-bucket type `β` abstracts
`model.StatsBucket`, which lives outside the embedded files. -/
structure Concentrator (β : Type) where
  aggregators : List String
  bsize : Int
  buckets : List (Int × β)

/-- bucketStart computes the bucket key exactly as `Concentrator.Add`
does: `btime := s.End() - s.End()%c.bsize`, with Go's truncated `%` on
`int64` being `Int.tmod`. -/
def bucketStart (bsize e : Int) : Int :=
  e - Int.tmod e bsize

/-- sublayerArg mirrors the argument selection in `Concentrator.Add`:
`&t.Sublayers` is passed iff `t.Root != nil && s.SpanID == t.Root.SpanID
&& t.Sublayers != nil`, and nil otherwise. -/
def sublayerArg {σ : Type} (pt : ProcessedTrace σ) (s : Span) : Option (List σ) :=
  match pt.Root, pt.Sublayers with
  | some r, some subl => if s.SpanID = r.SpanID then some subl else none
  | _, _ => none

/-- addSpanStep is the body of the `for _, s := range t.Trace` loop of
`Concentrator.Add` for one span: fetch the bucket keyed `btime`,
creating it with `model.NewStatsBucket(btime, bsize)` (abstracted as
`newB`) when absent, then apply `HandleSpan` (abstracted as the update
`hs`) to it. -/
def addSpanStep {β : Type} (newB : Int → Int → β) (bsize : Int)
    (m : List (Int × β)) (s : Span) (hs : β → β) : List (Int × β) :=
  let btime := bucketStart bsize s.End
  if m.any (fun kb => kb.1 == btime) then
    m.map (fun kb => if kb.1 == btime then (kb.1, hs kb.2) else kb)
  else
    m ++ [(btime, hs (newB btime bsize))]

/-- Concentrator.Add mirrors `Concentrator.Add`: every span of the
processed trace is handled in the bucket keyed by its end time, with the
sublayers passed only for the root span.  `handle` abstracts
`model.StatsBucket.HandleSpan` and `newB` abstracts
`model.NewStatsBucket`. -/
def Concentrator.Add {β σ : Type}
    (handle : β → Span → String → List String → Option (List σ) → β)
    (newB : Int → Int → β)
    (c : Concentrator β) (pt : ProcessedTrace σ) : Concentrator β :=
  { c with
    buckets := pt.Trace.foldl
      (fun m s =>
        addSpanStep newB c.bsize m s
          (fun b => handle b s pt.Env c.aggregators (sublayerArg pt s)))
      c.buckets }

/-- flushLoop is the `for ts, bucket := range c.buckets` loop of
`Concentrator.Flush`: buckets with `ts > now - bsize` are kept
(`continue`), the others are appended to the result and deleted. -/
def flushLoop {β : Type} (cut : Int) : List (Int × β) → List β × List (Int × β)
  | [] => ([], [])
  | (ts, b) :: rest =>
    let r := flushLoop cut rest
    if cut < ts then (r.1, (ts, b) :: r.2)
    else (b :: r.1, r.2)

/-- Concentrator.Flush mirrors `Concentrator.Flush`; the wall-clock value
`model.Now()` is passed in as `now`.  It returns the flushed buckets and
the concentrator with those buckets deleted. -/
def Concentrator.Flush {β : Type} (c : Concentrator β) (now : Int) :
    List β × Concentrator β :=
  let r := flushLoop (now - c.bsize) c.buckets
  (r.1, { c with buckets := r.2 })

/-- lookupB is Go's `b, ok := m[k]` on the modelled bucket map. -/
def lookupB {β : Type} (m : List (Int × β)) (k : Int) : Option β :=
  (m.find? (fun kb => kb.1 == k)).map Prod.snd

theorem flushLoop_fst {β : Type} (cut : Int) (l : List (Int × β)) :
    (flushLoop cut l).1 = (l.filter (fun kb => decide (kb.1 ≤ cut))).map Prod.snd := by
  induction l with
  | nil => rfl
  | cons kb rest ih =>
    obtain ⟨ts, b⟩ := kb
    by_cases h : cut < ts
    · simp [flushLoop, h, List.filter, not_le.mpr h, ih]
    · simp [flushLoop, h, List.filter, not_lt.mp h, ih]

theorem flushLoop_snd {β : Type} (cut : Int) (l : List (Int × β)) :
    (flushLoop cut l).2 = l.filter (fun kb => decide (cut < kb.1)) := by
  induction l with
  | nil => rfl
  | cons kb rest ih =>
    obtain ⟨ts, b⟩ := kb
    by_cases h : cut < ts
    · simp [flushLoop, h, List.filter, ih]
    · simp [flushLoop, h, List.filter, ih]

/-- C1: a Flush at wall-clock time `now` returns exactly the stored
buckets whose start is at most `now - bsize`, removes exactly those from
the bucket map, and keeps every still-open bucket
(`bucket_start > now - bsize`) stored and out of the flush result. -/
theorem C1_flush_complete_buckets {β : Type} (c : Concentrator β) (now : Int) :
    (c.Flush now).1
        = (c.buckets.filter (fun kb => decide (kb.1 ≤ now - c.bsize))).map Prod.snd
      ∧ (c.Flush now).2.buckets
        = c.buckets.filter (fun kb => decide (now - c.bsize < kb.1))
      ∧ (∀ kb ∈ c.buckets, kb.1 ≤ now - c.bsize → kb.2 ∈ (c.Flush now).1)
      ∧ (∀ kb ∈ c.buckets, now - c.bsize < kb.1 → kb ∈ (c.Flush now).2.buckets)
      ∧ ∀ kb ∈ (c.Flush now).2.buckets, kb ∈ c.buckets ∧ now - c.bsize < kb.1 := by
  refine ⟨flushLoop_fst _ _, flushLoop_snd _ _, ?_, ?_, ?_⟩
  · intro kb hmem hle
    rw [show (c.Flush now).1 = (flushLoop (now - c.bsize) c.buckets).1 from rfl,
      flushLoop_fst]
    exact List.mem_map_of_mem Prod.snd (List.mem_filter.mpr ⟨hmem, by simpa using hle⟩)
  · intro kb hmem hlt
    rw [show (c.Flush now).2.buckets = (flushLoop (now - c.bsize) c.buckets).2 from rfl,
      flushLoop_snd]
    exact List.mem_filter.mpr ⟨hmem, by simpa using hlt⟩
  · intro kb hmem
    rw [show (c.Flush now).2.buckets = (flushLoop (now - c.bsize) c.buckets).2 from rfl,
      flushLoop_snd] at hmem
    have := List.mem_filter.mp hmem
    exact ⟨this.1, by simpa using this.2⟩

/-- C1 witness: a concrete concentrator with one complete and one open
bucket. -/
theorem C1_flush_complete_buckets_witness :
    ((Concentrator.Flush (β := Nat) ⟨[], 5, [(0, 7), (10, 8)]⟩ 12).1 = [7]
      ∧ (Concentrator.Flush (β := Nat) ⟨[], 5, [(0, 7), (10, 8)]⟩ 12).2.buckets
          = [(10, 8)]) := by
  have h := C1_flush_complete_buckets (β := Nat) ⟨[], 5, [(0, 7), (10, 8)]⟩ 12
  refine ⟨h.1.trans (by decide), h.2.1.trans (by decide)⟩

theorem bucketStart_dvd (bsize e : Int) : bsize ∣ bucketStart bsize e := by
  refine ⟨e.tdiv bsize, ?_⟩
  have h := Int.tdiv_add_tmod e bsize
  unfold bucketStart
  linarith

theorem addSpanStep_fst_preserved {β : Type} (btime : Int) (hs : β → β)
    (kb : Int × β) :
    ((if kb.1 == btime then (kb.1, hs kb.2) else kb)).1 = kb.1 := by
  split <;> rfl

theorem addSpanStep_keys {β : Type} (newB : Int → Int → β) (bsize : Int)
    (m : List (Int × β)) (s : Span) (hs : β → β) (k : Int) :
    k ∈ (addSpanStep newB bsize m s hs).map Prod.fst
      ↔ k ∈ m.map Prod.fst ∨ k = bucketStart bsize s.End := by
  unfold addSpanStep
  by_cases h : m.any (fun kb => kb.1 == bucketStart bsize s.End)
  · have hbt : bucketStart bsize s.End ∈ m.map Prod.fst := by
      obtain ⟨kb, hkb, hpb⟩ := List.any_eq_true.mp h
      exact List.mem_map.mpr ⟨kb, hkb, by simpa using (eq_of_beq hpb)⟩
    have hkeys : (m.map fun kb =>
          if kb.1 == bucketStart bsize s.End then (kb.1, hs kb.2) else kb).map Prod.fst
        = m.map Prod.fst := by
      rw [List.map_map]
      exact List.map_congr_left fun kb _ => addSpanStep_fst_preserved _ _ kb
    simp only [h, if_true]
    rw [hkeys]
    constructor
    · exact fun hk => Or.inl hk
    · rintro (hk | rfl)
      · exact hk
      · exact hbt
  · simp only [h, if_false, Bool.false_eq_true]
    rw [List.map_append]
    simp [or_comm]

theorem addSpanStep_lookup_ne {β : Type} (newB : Int → Int → β) (bsize : Int)
    (m : List (Int × β)) (s : Span) (hs : β → β) (k : Int)
    (hk : k ≠ bucketStart bsize s.End) :
    lookupB (addSpanStep newB bsize m s hs) k = lookupB m k := by
  unfold addSpanStep lookupB
  by_cases h : m.any (fun kb => kb.1 == bucketStart bsize s.End)
  · simp only [h, if_true]
    rw [List.find?_map]
    have hpred : ∀ kb : Int × β,
        (((if kb.1 == bucketStart bsize s.End then (kb.1, hs kb.2) else kb)).1 == k)
          = (kb.1 == k) := by
      intro kb; rw [addSpanStep_fst_preserved]
    rw [show ((fun kb : Int × β => kb.1 == k) ∘
          (fun kb => if kb.1 == bucketStart bsize s.End then (kb.1, hs kb.2) else kb))
        = fun kb : Int × β => kb.1 == k from funext fun kb => hpred kb]
    cases hfind : m.find? (fun kb => kb.1 == k) with
    | none => rfl
    | some kb =>
      have hk1 : kb.1 = k := by simpa using List.find?_some hfind
      have hbf : kb.1 ≠ bucketStart bsize s.End := by
        rw [hk1]; exact hk
      simp [hbf]
  · simp only [h, if_false, Bool.false_eq_true]
    rw [List.find?_append]
    have hsing : List.find? (fun kb => kb.1 == k)
        [(bucketStart bsize s.End, hs (newB (bucketStart bsize s.End) bsize))] = none := by
      refine List.find?_eq_none.mpr ?_
      intro x hx
      rcases List.mem_singleton.mp hx with rfl
      simpa using Ne.symm hk
    rw [hsing]
    cases m.find? (fun kb => kb.1 == k) <;> rfl

theorem addSpanStep_lookup_eq {β : Type} (newB : Int → Int → β) (bsize : Int)
    (m : List (Int × β)) (s : Span) (hs : β → β) :
    lookupB (addSpanStep newB bsize m s hs) (bucketStart bsize s.End)
      = some (hs ((lookupB m (bucketStart bsize s.End)).getD
          (newB (bucketStart bsize s.End) bsize))) := by
  unfold addSpanStep lookupB
  by_cases h : m.any (fun kb => kb.1 == bucketStart bsize s.End)
  · simp only [h, if_true]
    have hsome : (m.find? (fun kb => kb.1 == bucketStart bsize s.End)).isSome := by
      rw [List.find?_isSome]
      obtain ⟨kb, hkb, hpb⟩ := List.any_eq_true.mp h
      exact ⟨kb, hkb, hpb⟩
    obtain ⟨kb₀, hfind⟩ := Option.isSome_iff_exists.mp hsome
    rw [List.find?_map]
    have hpred : ((fun kb : Int × β => kb.1 == bucketStart bsize s.End) ∘
          (fun kb => if kb.1 == bucketStart bsize s.End then (kb.1, hs kb.2) else kb))
        = fun kb : Int × β => kb.1 == bucketStart bsize s.End := by
      refine funext fun kb => ?_
      simp only [Function.comp_apply]
      rw [addSpanStep_fst_preserved]
    rw [hpred, hfind]
    have hb := List.find?_some hfind
    have hb1 : kb₀.1 = bucketStart bsize s.End := by simpa using hb
    simp [hb1]
  · simp only [h, if_false, Bool.false_eq_true]
    have hnone : m.find? (fun kb => kb.1 == bucketStart bsize s.End) = none := by
      rw [List.find?_eq_none]
      intro kb hkb hpb
      exact (List.any_eq_true.not.mp h) ⟨kb, hkb, hpb⟩
    rw [List.find?_append, hnone]
    simp [List.find?]

theorem add_keys_dvd {β σ : Type}
    (handle : β → Span → String → List String → Option (List σ) → β)
    (newB : Int → Int → β) (c : Concentrator β) (pt : ProcessedTrace σ)
    (hinv : ∀ k ∈ c.buckets.map Prod.fst, c.bsize ∣ k) :
    ∀ k ∈ (Concentrator.Add handle newB c pt).buckets.map Prod.fst, c.bsize ∣ k := by
  show ∀ k ∈ (pt.Trace.foldl _ c.buckets).map Prod.fst, c.bsize ∣ k
  have main : ∀ (tr : List Span) (m : List (Int × β)),
      (∀ k ∈ m.map Prod.fst, c.bsize ∣ k) →
      ∀ k ∈ (tr.foldl
        (fun m s => addSpanStep newB c.bsize m s
          (fun b => handle b s pt.Env c.aggregators (sublayerArg pt s))) m).map Prod.fst,
        c.bsize ∣ k := by
    intro tr
    induction tr with
    | nil => intro m hm; exact hm
    | cons s rest ih =>
      intro m hm
      refine ih _ ?_
      intro k hk
      rcases (addSpanStep_keys newB c.bsize m s _ k).mp hk with hk | rfl
      · exact hm k hk
      · exact bucketStart_dvd _ _
  exact main pt.Trace c.buckets hinv

/-- C2: each span handled by `Concentrator.Add` is recorded in exactly the
bucket keyed `s.End - s.End tmod bsize` (every other key's bucket is
untouched), that key is an integer multiple of `bsize`, and the
all-keys-are-multiples invariant of the bucket map is preserved by both
`Add` and `Flush`. -/
theorem C2_bucket_key_invariant {β σ : Type}
    (handle : β → Span → String → List String → Option (List σ) → β)
    (newB : Int → Int → β) (bsize : Int) :
    (∀ e, bsize ∣ bucketStart bsize e)
  ∧ (∀ (m : List (Int × β)) (s : Span) (hs : β → β),
      (∀ k, k ≠ bucketStart bsize s.End →
        lookupB (addSpanStep newB bsize m s hs) k = lookupB m k)
      ∧ lookupB (addSpanStep newB bsize m s hs) (bucketStart bsize s.End)
          = some (hs ((lookupB m (bucketStart bsize s.End)).getD
              (newB (bucketStart bsize s.End) bsize))))
  ∧ (∀ (c : Concentrator β) (pt : ProcessedTrace σ), c.bsize = bsize →
      (∀ k ∈ c.buckets.map Prod.fst, bsize ∣ k) →
      ∀ k ∈ (Concentrator.Add handle newB c pt).buckets.map Prod.fst, bsize ∣ k)
  ∧ ∀ (c : Concentrator β) (now : Int), c.bsize = bsize →
      (∀ k ∈ c.buckets.map Prod.fst, bsize ∣ k) →
      ∀ k ∈ (c.Flush now).2.buckets.map Prod.fst, bsize ∣ k := by
  refine ⟨fun e => bucketStart_dvd bsize e, ?_, ?_, ?_⟩
  · intro m s hs
    exact ⟨fun k hk => addSpanStep_lookup_ne newB bsize m s hs k hk,
      addSpanStep_lookup_eq newB bsize m s hs⟩
  · intro c pt hb hinv
    subst hb
    exact add_keys_dvd handle newB c pt hinv
  · intro c now hb hinv k hk
    subst hb
    rw [show (c.Flush now).2.buckets = (flushLoop (now - c.bsize) c.buckets).2 from rfl,
      flushLoop_snd] at hk
    obtain ⟨kb, hkb, rfl⟩ := List.mem_map.mp hk
    exact hinv kb.1 (List.mem_map.mpr ⟨kb, (List.mem_filter.mp hkb).1, rfl⟩)

/-- C2 witness: concrete instantiation, checking the bucket key of a span
ending at 17 with a 5ns bucket and the untouched-key property. -/
theorem C2_bucket_key_invariant_witness :
    (5 : Int) ∣ bucketStart 5 17
      ∧ lookupB (addSpanStep (β := Nat) (fun _ _ => 0) 5 [] ⟨"", "", "", 1, 1, 10, 7, 0, [], [], 0, ""⟩ (fun b => b + 1)) 20 = none := by
  have h := C2_bucket_key_invariant (β := Nat) (σ := Unit)
    (fun b _ _ _ _ => b) (fun _ _ => 0) 5
  refine ⟨h.1 17, ?_⟩
  have hs := (h.2.1 [] ⟨"", "", "", 1, 1, 10, 7, 0, [], [], 0, ""⟩ (fun b => b + 1)).1 20
    (by decide)
  rw [hs]
  rfl

/-- scanRest is the inner `for i := range t` loop of
`HTTPReceiver.handleTraces` from index `i` on, the previous span's trace
ID being `prevId`: it aborts (`none`, modelling the `continue Traces`
that drops the whole trace) on a trace-ID mismatch, and otherwise
normalizes the span in place (`norm` abstracts `model.Span.Normalize`,
`none` meaning a normalization error) recording its index in `toRemove`
on failure.  On a failed normalization Go leaves whatever partially
normalized value in the slice; that value is irrelevant because its
index is removed before the trace is forwarded, so the model keeps the
original span there. -/
def scanRest (norm : Span → Option Span) (prevId : Nat) (i : Nat) :
    List Span → Option (List Span × List Nat)
  | [] => some ([], [])
  | s :: rest =>
    if s.TraceID ≠ prevId then none
    else
      match norm s, scanRest norm s.TraceID (i + 1) rest with
      | _, none => none
      | some s', some (acc, rem) => some (s' :: acc, rem)
      | none, some (acc, rem) => some (s :: acc, i :: rem)

/-- scanTrace is the whole inner loop: the span at index 0 skips the
mismatch check (`i != 0` is false) and seeds `id` with its trace ID. -/
def scanTrace (norm : Span → Option Span) : List Span → Option (List Span × List Nat)
  | [] => some ([], [])
  | s :: rest =>
    match norm s, scanRest norm s.TraceID 1 rest with
    | _, none => none
    | some s', some (acc, rem) => some (s' :: acc, rem)
    | none, some (acc, rem) => some (s :: acc, 0 :: rem)

/-- swapRemove is one iteration of the drop-index loop of
`handleTraces`: `t[idx] = t[len(t)-1]; t = t[:len(t)-1]`. -/
def swapRemove (t : List Span) (idx : Nat) : List Span :=
  (t.set idx (t.getLast?.getD default)).dropLast

/-- removeLoop is the `for i := len(toRemove)-1; i >= 0; i--` loop of
`handleTraces`; its argument is `toRemove` reversed (largest index
first).  `none` models the debug `panic("NO")`, taken exactly when the
source's guard `idx > len(t)-1` holds (the bound is computed in `Int`
because Go evaluates `len(t)-1` in `int`). -/
def removeLoop : List Nat → List Span → Option (List Span)
  | [], t => some t
  | idx :: rest, t =>
    if (idx : Int) > (t.length : Int) - 1 then none
    else removeLoop rest (swapRemove t idx)

/-- removeAtIdxs is the specification of index removal: keep the
elements whose position (counted from `i`) is not listed in `rem`. -/
def removeAtIdxs (rem : List Nat) : List Span → Nat → List Span
  | [], _ => []
  | a :: t, i =>
    if i ∈ rem then removeAtIdxs rem t (i + 1) else a :: removeAtIdxs rem t (i + 1)

/-- TraceDelta is the contribution of one decoded "trace" to the
receiver counters (`stotal`, `sdropped`, `ttotal`, `tdropped` of
`handleTraces`) and to the `l.traces` channel (`fw`). -/
structure TraceDelta where
  stotal : Nat
  sdropped : Nat
  ttotal : Nat
  tdropped : Nat
  fw : Option (List Span)
  deriving Repr, DecidableEq

/-- processOneTrace is one iteration of the `Traces:` loop of
`handleTraces`: drop the whole trace on a trace-ID mismatch, drop it
when every index was marked for removal (`len(toRemove) == len(t)`,
which includes the empty trace), and otherwise swap-and-truncate the
marked indices away and send the surviving trace on the channel.
`none` models the handler goroutine dying on the debug panic. -/
def processOneTrace (norm : Span → Option Span) (t : List Span) : Option TraceDelta :=
  match scanTrace norm t with
  | none => some ⟨t.length, t.length, 0, 1, none⟩
  | some (t', rem) =>
    if rem.length = t.length then some ⟨t.length, rem.length, 0, 1, none⟩
    else
      match removeLoop rem.reverse t' with
      | none => none
      | some out => some ⟨t.length, rem.length, 1, 0, some out⟩

/-- RStats accumulates the per-request counter additions performed at
the end of `handleTraces` (`atomic.AddInt64` on the receiver stats) and
the traces forwarded on the `l.traces` channel, in order. -/
structure RStats where
  stotal : Nat
  sdropped : Nat
  ttotal : Nat
  tdropped : Nat
  forwarded : List (List Span)
  deriving Repr, DecidableEq

def TraceDelta.apply (d : TraceDelta) (st : RStats) : RStats :=
  ⟨d.stotal + st.stotal, d.sdropped + st.sdropped, d.ttotal + st.ttotal,
    d.tdropped + st.tdropped,
    match d.fw with
    | some o => o :: st.forwarded
    | none => st.forwarded⟩

/-- processTraces is the whole `Traces:` loop over the decoded traces,
followed by the counter additions. -/
def processTraces (norm : Span → Option Span) : List (List Span) → Option RStats
  | [] => some ⟨0, 0, 0, 0, []⟩
  | t :: ts =>
    match processOneTrace norm t, processTraces norm ts with
    | some d, some st => some (d.apply st)
    | _, _ => none

/-- APIVersion mirrors the `APIVersion` constants v01, v02, v03. -/
inductive APIVersion where
  | v01
  | v02
  | v03
  deriving Repr, DecidableEq

/-- HandlerOut is the observable outcome of one `handleTraces` request:
HTTP status and body, traces forwarded on the internal channel, and the
four counter additions. -/
structure HandlerOut where
  status : Nat
  body : String
  forwarded : List (List Span)
  stotal : Nat
  sdropped : Nat
  ttotal : Nat
  tdropped : Nat
  deriving Repr, DecidableEq

/-- jsonGate is the content-type condition of the v0.1/v0.2 branches:
the request passes iff `contentType` is `application/json`, `text/json`
or empty. -/
def jsonGate (ct : String) : Bool :=
  ct == "application/json" || ct == "text/json" || ct == ""

/-- groupByTraceID models the v0.1 regrouping of decoded spans into
traces via the Go map `byID`; Go map iteration order is unspecified, so
the model emits groups in order of first appearance of each trace ID
(no verified claim depends on this order). -/
def groupByTraceID (spans : List Span) : List (List Span) :=
  ((spans.map Span.TraceID).dedup).map
    (fun id => spans.filter (fun s => s.TraceID == id))

def okOut (st : RStats) : HandlerOut :=
  ⟨200, "OK\n", st.forwarded, st.stotal, st.sdropped, st.ttotal, st.tdropped⟩

def errOut (code : Nat) (msg : String) : HandlerOut :=
  ⟨code, msg, [], 0, 0, 0, 0⟩

/-- handleTraces mirrors `HTTPReceiver.handleTraces` after the body has
been read.  Decoding is done by external libraries (`encoding/json`,
`ugorji/go/codec`), so each decoder's outcome on the request body is a
parameter: `decSpansJson` is the body JSON-decoded as `[]model.Span`
(v0.1's shape), `decTracesJson`/`decTracesMsgpack` the body decoded as
`[]model.Trace` by the JSON and msgpack decoders (`initDecoder` picks
msgpack exactly for content type `application/msgpack`); `none` is a
decode error.  Error bodies follow `http.Error`, which appends a
newline to the `errClient` tag. -/
def handleTraces (norm : Span → Option Span) (v : APIVersion) (contentType : String)
    (decSpansJson : Option (List Span))
    (decTracesJson decTracesMsgpack : Option (List (List Span))) : Option HandlerOut :=
  match v with
  | .v01 =>
    if !jsonGate contentType then some (errOut 415 "decoding-error\n")
    else
      match decSpansJson with
      | none => some (errOut 500 "decoding-error\n")
      | some spans => (processTraces norm (groupByTraceID spans)).map okOut
  | .v02 =>
    if !jsonGate contentType then some (errOut 415 "decoding-error\n")
    else
      match decTracesJson with
      | none => some (errOut 500 "decoding-error\n")
      | some traces => (processTraces norm traces).map okOut
  | .v03 =>
    match (if contentType == "application/msgpack" then decTracesMsgpack else decTracesJson) with
    | none => some (errOut 500 "decoding-error\n")
    | some traces => (processTraces norm traces).map okOut

/-- allSameTid states that all spans of a trace share one trace ID. -/
def allSameTid (t : List Span) : Prop :=
  ∀ x ∈ t, ∀ y ∈ t, x.TraceID = y.TraceID

theorem removeAtIdxs_nil_rem (l : List Span) (i : Nat) :
    removeAtIdxs [] l i = l := by
  induction l generalizing i with
  | nil => rfl
  | cons a t ih => simp [removeAtIdxs, ih]

theorem removeAtIdxs_congr (rem₁ rem₂ : List Nat) (l : List Span) (i : Nat)
    (h : ∀ p, i ≤ p → p < i + l.length → (p ∈ rem₁ ↔ p ∈ rem₂)) :
    removeAtIdxs rem₁ l i = removeAtIdxs rem₂ l i := by
  induction l generalizing i with
  | nil => rfl
  | cons a t ih =>
    have hi : i ∈ rem₁ ↔ i ∈ rem₂ := h i le_rfl (by simp)
    have ht : removeAtIdxs rem₁ t (i + 1) = removeAtIdxs rem₂ t (i + 1) :=
      ih (i + 1) (fun p hp1 hp2 => h p (by omega) (by simpa [Nat.add_comm] using by omega))
    by_cases hmem : i ∈ rem₁
    · simp [removeAtIdxs, hmem, hi.mp hmem, ht]
    · have hmem₂ : i ∉ rem₂ := fun hc => hmem (hi.mpr hc)
      simp [removeAtIdxs, hmem, hmem₂, ht]

theorem removeAtIdxs_low (rem : List Nat) (l : List Span) (i : Nat)
    (h : ∀ j ∈ rem, j < i) : removeAtIdxs rem l i = l := by
  rw [removeAtIdxs_congr rem [] l i
    (fun p hp1 _ => ⟨fun hmem => absurd (h p hmem) (by omega), fun hmem => absurd hmem (by simp)⟩)]
  exact removeAtIdxs_nil_rem l i

theorem removeAtIdxs_append (rem : List Nat) (p s : List Span) (i : Nat) :
    removeAtIdxs rem (p ++ s) i
      = removeAtIdxs rem p i ++ removeAtIdxs rem s (i + p.length) := by
  induction p generalizing i with
  | nil => simp [removeAtIdxs]
  | cons a t ih =>
    by_cases hmem : i ∈ rem
    · simp [removeAtIdxs, hmem, ih (i + 1), Nat.add_comm, Nat.add_assoc, Nat.add_left_comm]
    · simp [removeAtIdxs, hmem, ih (i + 1), Nat.add_comm, Nat.add_assoc, Nat.add_left_comm]

theorem scanRest_cons_none (norm : Span → Option Span) (pid i : Nat) (s : Span)
    (rest : List Span) (hmm : s.TraceID = pid) :
    (scanRest norm pid i (s :: rest) = none)
      ↔ scanRest norm s.TraceID (i + 1) rest = none := by
  have hcond : ¬ (s.TraceID ≠ pid) := by simp [hmm]
  rcases hrec : scanRest norm s.TraceID (i + 1) rest with _ | ⟨acc, rem⟩ <;>
    rcases hn : norm s with _ | s' <;>
      simp [scanRest, hcond, hrec, hn]

theorem scanRest_none_iff (norm : Span → Option Span) (pid i : Nat) (l : List Span) :
    scanRest norm pid i l = none ↔ ∃ s ∈ l, s.TraceID ≠ pid := by
  induction l generalizing pid i with
  | nil => simp [scanRest]
  | cons s rest ih =>
    by_cases hmm : s.TraceID = pid
    · rw [scanRest_cons_none norm pid i s rest hmm, ih s.TraceID (i + 1)]
      constructor
      · rintro ⟨x, hx, hxne⟩
        exact ⟨x, List.mem_cons_of_mem s hx, by rw [← hmm]; exact hxne⟩
      · rintro ⟨x, hx, hxne⟩
        rcases List.mem_cons.mp hx with rfl | hx'
        · exact absurd hmm hxne
        · exact ⟨x, hx', by rw [hmm]; exact hxne⟩
    · have hc : scanRest norm pid i (s :: rest) = none := by
        simp [scanRest, hmm]
      constructor
      · intro _
        exact ⟨s, List.mem_cons_self s rest, hmm⟩
      · intro _
        exact hc

theorem scanTrace_cons_none (norm : Span → Option Span) (s : Span) (rest : List Span) :
    (scanTrace norm (s :: rest) = none) ↔ scanRest norm s.TraceID 1 rest = none := by
  rcases hrec : scanRest norm s.TraceID 1 rest with _ | ⟨acc, rem⟩ <;>
    rcases hn : norm s with _ | s' <;> simp [scanTrace, hrec, hn]

theorem scanTrace_none_iff (norm : Span → Option Span) (t : List Span) :
    scanTrace norm t = none ↔ ¬ allSameTid t := by
  cases t with
  | nil =>
    simp only [scanTrace]
    constructor
    · intro h
      exact absurd h (by simp)
    · intro h
      exact absurd (fun x hx => absurd hx (List.not_mem_nil x)) h
  | cons s rest =>
    rw [scanTrace_cons_none, scanRest_none_iff]
    constructor
    · rintro ⟨x, hx, hxne⟩ hall
      exact hxne (hall x (List.mem_cons_of_mem s hx) s (List.mem_cons_self s rest))
    · intro hnall
      by_contra hne
      push_neg at hne
      refine hnall ?_
      intro x hx y hy
      rcases List.mem_cons.mp hx with rfl | hx'
      · rcases List.mem_cons.mp hy with rfl | hy'
        · rfl
        · exact (hne y hy').symm
      · rcases List.mem_cons.mp hy with rfl | hy'
        · exact hne x hx'
        · rw [hne x hx', hne y hy']

theorem scanRest_spec (norm : Span → Option Span) (l : List Span) :
    ∀ (pid i : Nat) (l' : List Span) (rem : List Nat),
      scanRest norm pid i l = some (l', rem) →
      l'.length = l.length
      ∧ (∀ j ∈ rem, i ≤ j ∧ j < i + l.length)
      ∧ rem.Pairwise (· < ·)
      ∧ removeAtIdxs rem l' i = l.filterMap norm
      ∧ rem.length + (l.filterMap norm).length = l.length := by
  induction l with
  | nil =>
    intro pid i l' rem h
    simp only [scanRest, Option.some.injEq, Prod.mk.injEq] at h
    obtain ⟨h1, h2⟩ := h
    subst h1; subst h2
    simp [removeAtIdxs]
  | cons s rest ih =>
    intro pid i l' rem h
    by_cases hmm : s.TraceID = pid
    · have hcond : ¬ (s.TraceID ≠ pid) := by simp [hmm]
      rcases hrec : scanRest norm s.TraceID (i + 1) rest with _ | ⟨acc, rem'⟩
      · rcases hn : norm s with _ | s' <;> simp [scanRest, hcond, hrec, hn] at h
      · obtain ⟨hlen, hbnd, hpw, hrm, hcnt⟩ := ih s.TraceID (i + 1) acc rem' hrec
        rcases hn : norm s with _ | s'
        · simp only [scanRest, if_neg hcond, hrec, hn, Option.some.injEq,
            Prod.mk.injEq] at h
          obtain ⟨h1, h2⟩ := h
          subst h1; subst h2
          refine ⟨by simp [hlen], ?_, ?_, ?_, ?_⟩
          · intro j hj
            rcases List.mem_cons.mp hj with rfl | hj'
            · exact ⟨le_rfl, by simp⟩
            · have := hbnd j hj'
              simp only [List.length_cons]
              omega
          · exact List.pairwise_cons.mpr
              ⟨fun j hj => by have := (hbnd j hj).1; omega, hpw⟩
          · have h0 : i ∈ (i :: rem') := List.mem_cons_self _ _
            simp only [removeAtIdxs, if_pos h0]
            have hcg : removeAtIdxs (i :: rem') acc (i + 1) = removeAtIdxs rem' acc (i + 1) := by
              refine removeAtIdxs_congr _ _ _ _ ?_
              intro p hp1 hp2
              constructor
              · intro hmem
                rcases List.mem_cons.mp hmem with rfl | hm
                · omega
                · exact hm
              · exact fun hm => List.mem_cons_of_mem i hm
            rw [hcg, hrm]
            simp [List.filterMap_cons, hn]
          · simp only [List.filterMap_cons, hn, List.length_cons]
            omega
        · simp only [scanRest, if_neg hcond, hrec, hn, Option.some.injEq,
            Prod.mk.injEq] at h
          obtain ⟨h1, h2⟩ := h
          subst h1; subst h2
          refine ⟨by simp [hlen], ?_, hpw, ?_, ?_⟩
          · intro j hj
            have := hbnd j hj
            simp only [List.length_cons]
            omega
          · have h0 : i ∉ rem' := fun hm => by have := (hbnd i hm).1; omega
            simp only [removeAtIdxs, if_neg h0]
            rw [hrm]
            simp [List.filterMap_cons, hn]
          · simp only [List.filterMap_cons, hn, List.length_cons]
            omega
    · simp [scanRest, hmm] at h

theorem scanTrace_spec (norm : Span → Option Span) (t : List Span)
    (t' : List Span) (rem : List Nat) (h : scanTrace norm t = some (t', rem)) :
    t'.length = t.length
    ∧ (∀ j ∈ rem, j < t.length)
    ∧ rem.Pairwise (· < ·)
    ∧ removeAtIdxs rem t' 0 = t.filterMap norm
    ∧ rem.length + (t.filterMap norm).length = t.length := by
  cases t with
  | nil =>
    simp only [scanTrace, Option.some.injEq, Prod.mk.injEq] at h
    obtain ⟨h1, h2⟩ := h
    subst h1; subst h2
    simp [removeAtIdxs]
  | cons s rest =>
    rcases hrec : scanRest norm s.TraceID 1 rest with _ | ⟨acc, rem'⟩
    · rcases hn : norm s with _ | s' <;> simp [scanTrace, hrec, hn] at h
    · obtain ⟨hlen, hbnd, hpw, hrm, hcnt⟩ := scanRest_spec norm rest s.TraceID 1 acc rem' hrec
      rcases hn : norm s with _ | s'
      · simp only [scanTrace, hrec, hn, Option.some.injEq, Prod.mk.injEq] at h
        obtain ⟨h1, h2⟩ := h
        subst h1; subst h2
        refine ⟨by simp [hlen], ?_, ?_, ?_, ?_⟩
        · intro j hj
          rcases List.mem_cons.mp hj with rfl | hj'
          · simp
          · have := hbnd j hj'
            simp only [List.length_cons]
            omega
        · exact List.pairwise_cons.mpr
            ⟨fun j hj => by have := (hbnd j hj).1; omega, hpw⟩
        · have h0 : (0 : Nat) ∈ (0 :: rem') := List.mem_cons_self _ _
          simp only [removeAtIdxs, if_pos h0]
          have hcg : removeAtIdxs (0 :: rem') acc 1 = removeAtIdxs rem' acc 1 := by
            refine removeAtIdxs_congr _ _ _ _ ?_
            intro p hp1 hp2
            constructor
            · intro hmem
              rcases List.mem_cons.mp hmem with rfl | hm
              · omega
              · exact hm
            · exact fun hm => List.mem_cons_of_mem 0 hm
          rw [hcg, hrm]
          simp [List.filterMap_cons, hn]
        · simp only [List.filterMap_cons, hn, List.length_cons]
          omega
      · simp only [scanTrace, hrec, hn, Option.some.injEq, Prod.mk.injEq] at h
        obtain ⟨h1, h2⟩ := h
        subst h1; subst h2
        refine ⟨by simp [hlen], ?_, hpw, ?_, ?_⟩
        · intro j hj
          have := hbnd j hj
          simp only [List.length_cons]
          omega
        · have h0 : (0 : Nat) ∉ rem' := fun hm => by have := (hbnd 0 hm).1; omega
          simp only [removeAtIdxs, if_neg h0]
          rw [hrm]
          simp [List.filterMap_cons, hn]
        · simp only [List.filterMap_cons, hn, List.length_cons]
          omega

theorem set_append_len {α : Type} (p q : List α) (x : α) :
    (p ++ q).set p.length x = p ++ q.set 0 x := by
  induction p with
  | nil => rfl
  | cons b p ih => simp [List.set, ih]

theorem getLast?_append_cons {α : Type} (p : List α) (a : α) (q : List α) :
    (p ++ a :: q).getLast? = (a :: q).getLast? := by
  rw [List.getLast?_append]
  cases h : (a :: q).getLast? with
  | none => simp [List.getLast?] at h
  | some b => rfl

theorem swap0_perm (a : Span) (B : List Span) (d : Span) :
    (((a :: B).getLast?.getD d :: B).dropLast).Perm B := by
  cases B using List.reverseRecOn with
  | nil => simp
  | append_singleton C b _ =>
    have hlast : (a :: (C ++ [b])).getLast? = some b := by
      rw [show a :: (C ++ [b]) = (a :: C) ++ [b] from by simp, List.getLast?_concat]
    rw [hlast]
    simp only [Option.getD_some]
    have hdl : (b :: (C ++ [b])).dropLast = b :: C := by
      rw [List.dropLast_cons_of_ne_nil (by simp), List.dropLast_concat]
    rw [hdl]
    exact (List.perm_append_singleton b C).symm

theorem swapRemove_split (p : List Span) (a : Span) (B : List Span) :
    swapRemove (p ++ a :: B) p.length
      = p ++ (((a :: B).getLast?.getD default :: B).dropLast) := by
  unfold swapRemove
  rw [getLast?_append_cons, set_append_len]
  rw [show (a :: B).set 0 ((a :: B).getLast?.getD default)
      = (a :: B).getLast?.getD default :: B from rfl]
  exact List.dropLast_append_of_ne_nil p (by simp)

theorem removeLoop_spec (rem : List Nat) :
    ∀ (t : List Span), rem.Pairwise (· < ·) → (∀ j ∈ rem, j < t.length) →
      ∃ out, removeLoop rem.reverse t = some out ∧ out.Perm (removeAtIdxs rem t 0) := by
  induction rem using List.reverseRecOn with
  | nil =>
    intro t _ _
    exact ⟨t, rfl, by rw [removeAtIdxs_nil_rem]⟩
  | append_singleton rem' m ih =>
    intro t hpw hbnd
    have hsplit := List.pairwise_append.mp hpw
    have hpw' : rem'.Pairwise (· < ·) := hsplit.1
    have hlt : ∀ j ∈ rem', j < m := fun j hj => hsplit.2.2 j hj m (by simp)
    have hm : m < t.length := hbnd m (by simp)
    have hdrop : t.drop m = t[m] :: t.drop (m + 1) := List.drop_eq_getElem_cons hm
    have ht : t = t.take m ++ t[m] :: t.drop (m + 1) := by
      rw [← hdrop, List.take_append_drop]
    have hplen : (t.take m).length = m := by
      simp [List.length_take, Nat.min_eq_left (le_of_lt hm)]
    set p := t.take m
    set a := t[m]
    set B := t.drop (m + 1)
    set z := ((a :: B).getLast?.getD default)
    have hswap : swapRemove t m = p ++ (z :: B).dropLast := by
      conv_lhs => rw [ht, ← hplen]
      exact swapRemove_split p a B
    have hwB : ((z :: B).dropLast).Perm B := swap0_perm a B default
    set w := (z :: B).dropLast
    have hwlen : w.length = B.length := hwB.length_eq
    obtain ⟨out, hloop, hperm⟩ := ih (p ++ w) hpw' (by
      intro j hj
      have hjm := hlt j hj
      simp only [List.length_append, hplen]
      omega)
    refine ⟨out, ?_, ?_⟩
    · rw [List.reverse_append, List.reverse_singleton, List.singleton_append]
      show removeLoop (m :: rem'.reverse) t = some out
      have hguard : ¬ ((m : Int) > (t.length : Int) - 1) := by
        push_neg
        omega
      simp only [removeLoop, if_neg hguard, hswap]
      exact hloop
    · have htarget : removeAtIdxs (rem' ++ [m]) t 0
          = removeAtIdxs rem' p 0 ++ B := by
        conv_lhs => rw [ht]
        rw [removeAtIdxs_append]
        have h1 : removeAtIdxs (rem' ++ [m]) p 0 = removeAtIdxs rem' p 0 := by
          refine removeAtIdxs_congr _ _ _ _ ?_
          intro q hq1 hq2
          rw [hplen] at hq2
          simp only [List.mem_append, List.mem_singleton]
          constructor
          · rintro (hq | rfl)
            · exact hq
            · omega
          · exact fun hq => Or.inl hq
        have h2 : removeAtIdxs (rem' ++ [m]) (a :: B) (0 + p.length) = B := by
          rw [hplen]
          have hmem : m ∈ rem' ++ [m] := by simp
          simp only [Nat.zero_add, removeAtIdxs, if_pos hmem]
          have h3 : removeAtIdxs (rem' ++ [m]) B (m + 1)
              = removeAtIdxs [] B (m + 1) := by
            refine removeAtIdxs_congr _ _ _ _ ?_
            intro q hq1 hq2
            simp only [List.mem_append, List.mem_singleton]
            constructor
            · rintro (hq | rfl)
              · have := hlt q hq
                omega
              · omega
            · intro hq
              exact absurd hq (List.not_mem_nil q)
          rw [h3, removeAtIdxs_nil_rem]
        rw [h1, h2]
      rw [htarget]
      have hmid : removeAtIdxs rem' (p ++ w) 0
          = removeAtIdxs rem' p 0 ++ w := by
        rw [removeAtIdxs_append]
        congr 1
        rw [hplen, Nat.zero_add]
        exact removeAtIdxs_low rem' w m hlt
      exact hperm.trans (by rw [hmid]; exact (List.Perm.append_left _ hwB))

def RStats.add (x y : RStats) : RStats :=
  ⟨x.stotal + y.stotal, x.sdropped + y.sdropped, x.ttotal + y.ttotal,
    x.tdropped + y.tdropped, x.forwarded ++ y.forwarded⟩

theorem TraceDelta.apply_add (d : TraceDelta) (a b : RStats) :
    d.apply (a.add b) = (d.apply a).add b := by
  cases d with
  | mk st sd tt td fw =>
    cases fw <;> simp [TraceDelta.apply, RStats.add, Nat.add_assoc]

theorem processOneTrace_of_scan_none (norm : Span → Option Span) (t : List Span)
    (h : scanTrace norm t = none) :
    processOneTrace norm t = some ⟨t.length, t.length, 0, 1, none⟩ := by
  unfold processOneTrace
  rw [h]

theorem processOneTrace_of_scan_some (norm : Span → Option Span) (t t' : List Span)
    (rem : List Nat) (h : scanTrace norm t = some (t', rem)) :
    processOneTrace norm t
      = if rem.length = t.length then some ⟨t.length, rem.length, 0, 1, none⟩
        else
          match removeLoop rem.reverse t' with
          | none => none
          | some out => some ⟨t.length, rem.length, 1, 0, some out⟩ := by
  unfold processOneTrace
  rw [h]

theorem processTraces_append (norm : Span → Option Span) (A B : List (List Span)) :
    processTraces norm (A ++ B)
      = match processTraces norm A, processTraces norm B with
        | some a, some b => some (a.add b)
        | _, _ => none := by
  induction A with
  | nil =>
    cases hB : processTraces norm B with
    | none => simp [processTraces, hB]
    | some b => simp [processTraces, hB, RStats.add]
  | cons t ts ih =>
    simp only [List.cons_append, processTraces, List.append_eq]
    cases hd : processOneTrace norm t with
    | none => rfl
    | some d =>
      rw [ih]
      cases hts : processTraces norm ts with
      | none => rfl
      | some a =>
        cases hB : processTraces norm B with
        | none => rfl
        | some b =>
          simp [TraceDelta.apply_add]

theorem processOneTrace_isSome (norm : Span → Option Span) (t : List Span) :
    (processOneTrace norm t).isSome := by
  rcases hscan : scanTrace norm t with _ | ⟨t', rem⟩
  · rw [processOneTrace_of_scan_none norm t hscan]
    rfl
  · obtain ⟨hlen, hbnd, hpw, hrm, hcnt⟩ := scanTrace_spec norm t t' rem hscan
    rw [processOneTrace_of_scan_some norm t t' rem hscan]
    by_cases hall : rem.length = t.length
    · simp [hall]
    · obtain ⟨out, hloop, hperm⟩ := removeLoop_spec rem t' hpw
        (by intro j hj; rw [hlen]; exact hbnd j hj)
      simp [hall, hloop]

theorem processTraces_isSome (norm : Span → Option Span) (L : List (List Span)) :
    (processTraces norm L).isSome := by
  induction L with
  | nil => simp [processTraces]
  | cons t ts ih =>
    simp only [processTraces]
    obtain ⟨d, hd⟩ := Option.isSome_iff_exists.mp (processOneTrace_isSome norm t)
    obtain ⟨st, hst⟩ := Option.isSome_iff_exists.mp ih
    rw [hd, hst]
    rfl

theorem processOneTrace_counts (norm : Span → Option Span) (t : List Span)
    (d : TraceDelta) (h : processOneTrace norm t = some d) :
    d.stotal = (match d.fw with | some o => o.length | none => 0) + d.sdropped := by
  rcases hscan : scanTrace norm t with _ | ⟨t', rem⟩
  · rw [processOneTrace_of_scan_none norm t hscan] at h
    simp only [Option.some.injEq] at h
    subst h
    simp
  · obtain ⟨hlen, hbnd, hpw, hrm, hcnt⟩ := scanTrace_spec norm t t' rem hscan
    rw [processOneTrace_of_scan_some norm t t' rem hscan] at h
    by_cases hall : rem.length = t.length
    · rw [if_pos hall] at h
      simp only [Option.some.injEq] at h
      subst h
      simp [hall]
    · rw [if_neg hall] at h
      obtain ⟨out, hloop, hperm⟩ := removeLoop_spec rem t' hpw
        (by intro j hj; rw [hlen]; exact hbnd j hj)
      rw [hloop] at h
      simp only [Option.some.injEq] at h
      subst h
      have houtlen : out.length = (t.filterMap norm).length := by
        rw [hperm.length_eq, hrm]
      simp only []
      omega

/-- spanT is a test span with the given trace ID. -/
def spanT (tid : Nat) : Span :=
  { (default : Span) with TraceID := tid }

/-- spanS is a test span with the given span ID. -/
def spanS (sid : Nat) : Span :=
  { (default : Span) with SpanID := sid }

/-- C5: the debug `panic("NO")` in the drop-index path of `handleTraces`
is unreachable: the handler (and its `Traces:` loop) runs to completion
on every input, because the indices in `toRemove` are strictly
increasing and below the trace length, so each processed index is at
most `len(t)-1` at the moment it is processed. -/
theorem C5_panic_unreachable (norm : Span → Option Span) (v : APIVersion) (ct : String)
    (dS : Option (List Span)) (dTj dTm : Option (List (List Span))) :
    (handleTraces norm v ct dS dTj dTm).isSome
      ∧ ∀ L : List (List Span), (processTraces norm L).isSome := by
  refine ⟨?_, fun L => processTraces_isSome norm L⟩
  cases v with
  | v01 =>
    by_cases hgate : jsonGate ct
    · cases dS with
      | none => simp [handleTraces, hgate]
      | some spans =>
        obtain ⟨st, hst⟩ := Option.isSome_iff_exists.mp
          (processTraces_isSome norm (groupByTraceID spans))
        simp [handleTraces, hgate, hst]
    · simp [handleTraces, Bool.eq_false_iff.mpr hgate]
  | v02 =>
    by_cases hgate : jsonGate ct
    · cases dTj with
      | none => simp [handleTraces, hgate]
      | some traces =>
        obtain ⟨st, hst⟩ := Option.isSome_iff_exists.mp
          (processTraces_isSome norm traces)
        simp [handleTraces, hgate, hst]
    · simp [handleTraces, Bool.eq_false_iff.mpr hgate]
  | v03 =>
    have hsel : handleTraces norm APIVersion.v03 ct dS dTj dTm
        = match (if ct == "application/msgpack" then dTm else dTj) with
          | none => some (errOut 500 "decoding-error\n")
          | some traces => (processTraces norm traces).map okOut := rfl
    rcases hdec : (if ct == "application/msgpack" then dTm else dTj) with _ | traces
    · rw [hsel, hdec]
      rfl
    · obtain ⟨st, hst⟩ := Option.isSome_iff_exists.mp
        (processTraces_isSome norm traces)
      rw [hsel, hdec]
      simp [hst]

/-- C4: for a decoded trace whose spans all share one trace ID: if the
trace is empty or every span fails normalization it is dropped whole
(`TracesDropped` incremented, nothing forwarded); otherwise the
forwarded trace is, as a multiset, exactly the successfully normalized
spans. -/
theorem C4_partial_trace (norm : Span → Option Span) (t : List Span)
    (hsame : allSameTid t) :
    ((t = [] ∨ ∀ s ∈ t, norm s = none) →
      processOneTrace norm t = some ⟨t.length, t.length, 0, 1, none⟩)
  ∧ ((∃ s ∈ t, (norm s).isSome) →
      ∃ out, processOneTrace norm t
          = some ⟨t.length, t.length - (t.filterMap norm).length, 1, 0, some out⟩
        ∧ out.Perm (t.filterMap norm)) := by
  have hscan : scanTrace norm t ≠ none :=
    fun hc => (scanTrace_none_iff norm t).mp hc hsame
  rcases hs : scanTrace norm t with _ | ⟨t', rem⟩
  · exact absurd hs hscan
  obtain ⟨hlen, hbnd, hpw, hrm, hcnt⟩ := scanTrace_spec norm t t' rem hs
  constructor
  · intro hdrop
    have hfm : t.filterMap norm = [] := by
      rcases hdrop with rfl | hnone
      · rfl
      · exact List.filterMap_eq_nil_iff.mpr hnone
    have hall : rem.length = t.length := by
      rw [hfm] at hcnt
      simpa using hcnt
    rw [processOneTrace_of_scan_some norm t t' rem hs, if_pos hall, hall]
  · rintro ⟨s, hmem, hsome⟩
    have hfm : t.filterMap norm ≠ [] := by
      intro hc
      rw [List.filterMap_eq_nil_iff] at hc
      rw [hc s hmem] at hsome
      exact absurd hsome (by simp)
    have hpos : 0 < (t.filterMap norm).length := List.length_pos.mpr hfm
    have hall : ¬ rem.length = t.length := by omega
    obtain ⟨out, hloop, hperm⟩ := removeLoop_spec rem t' hpw
      (by intro j hj; rw [hlen]; exact hbnd j hj)
    refine ⟨out, ?_, by rw [← hrm]; exact hperm⟩
    rw [processOneTrace_of_scan_some norm t t' rem hs, if_neg hall, hloop]
    have hsd : rem.length = t.length - (t.filterMap norm).length := by omega
    rw [hsd]

/-- C4 witness: a two-span trace in which exactly one span survives
normalization. -/
theorem C4_partial_trace_witness :
    ∃ out, processOneTrace (fun s => if s.SpanID = 1 then some s else none)
        [spanS 1, spanS 2]
        = some ⟨2, 1, 1, 0, some out⟩
      ∧ out.Perm [spanS 1] := by
  have hsame : allSameTid [spanS 1, spanS 2] := by
    intro x hx y hy
    rcases List.mem_cons.mp hx with rfl | hx' <;>
      rcases List.mem_cons.mp hy with rfl | hy' <;>
        simp_all [spanS]
  have h := (C4_partial_trace (fun s => if s.SpanID = 1 then some s else none)
    [spanS 1, spanS 2] hsame).2 ⟨spanS 1, by simp, by simp [spanS]⟩
  simpa [spanS] using h

theorem mixedTrace_processTraces (norm : Span → Option Span)
    (L₁ L₂ : List (List Span)) (t : List Span) (hmix : ¬ allSameTid t) :
    ∃ st, processTraces norm (L₁ ++ L₂) = some st
      ∧ processTraces norm (L₁ ++ t :: L₂)
          = some ⟨st.stotal + t.length, st.sdropped + t.length, st.ttotal,
              st.tdropped + 1, st.forwarded⟩ := by
  obtain ⟨a, ha⟩ := Option.isSome_iff_exists.mp (processTraces_isSome norm L₁)
  obtain ⟨b, hb⟩ := Option.isSome_iff_exists.mp (processTraces_isSome norm L₂)
  have hone : processOneTrace norm t = some ⟨t.length, t.length, 0, 1, none⟩ :=
    processOneTrace_of_scan_none norm t ((scanTrace_none_iff norm t).mpr hmix)
  have hcons : processTraces norm (t :: L₂)
      = some (TraceDelta.apply ⟨t.length, t.length, 0, 1, none⟩ b) := by
    simp only [processTraces, hone, hb]
  have hsplit : processTraces norm (L₁ ++ L₂) = some (a.add b) := by
    rw [processTraces_append, ha, hb]
  refine ⟨a.add b, hsplit, ?_⟩
  rw [processTraces_append, ha, hcons]
  simp only [RStats.add, TraceDelta.apply, Option.some.injEq, RStats.mk.injEq,
    and_true, true_and]
  omega

/-- C3: for every traces request that decodes successfully to a trace
list containing a "trace" `t` whose spans do not all share one trace ID
— v0.2 with the content-type gate passed, or v0.3 with whichever decoder
`initDecoder` selects for the content type — the handler still answers
200 "OK\n", forwards nothing for `t`, and adds 1 to TracesDropped and
`len t` to SpansDropped (and to SpansReceived).  The final conjunct
closes the remaining version: the v0.1 regrouping `byID` only builds
traces whose spans share one trace ID, so no decoded v0.1 request can
contain a mixed trace at all. -/
theorem C3_mixed_trace_id_dropped (norm : Span → Option Span) (v : APIVersion)
    (ct : String) (dS : Option (List Span)) (dTj dTm : Option (List (List Span)))
    (L₁ L₂ : List (List Span)) (t : List Span)
    (hv : (v = APIVersion.v02 ∧ jsonGate ct = true ∧ dTj = some (L₁ ++ t :: L₂))
        ∨ (v = APIVersion.v03
            ∧ (if ct == "application/msgpack" then dTm else dTj)
                = some (L₁ ++ t :: L₂)))
    (hmix : ¬ allSameTid t) :
    (∃ st, processTraces norm (L₁ ++ L₂) = some st
      ∧ handleTraces norm v ct dS dTj dTm
          = some ⟨200, "OK\n", st.forwarded, st.stotal + t.length,
              st.sdropped + t.length, st.ttotal, st.tdropped + 1⟩)
    ∧ ∀ spans : List Span, ∀ u ∈ groupByTraceID spans, allSameTid u := by
  constructor
  · obtain ⟨st, hst, hsplitall⟩ := mixedTrace_processTraces norm L₁ L₂ t hmix
    refine ⟨st, hst, ?_⟩
    have hh : handleTraces norm v ct dS dTj dTm
        = (processTraces norm (L₁ ++ t :: L₂)).map okOut := by
      rcases hv with ⟨rfl, hct, hdec⟩ | ⟨rfl, hdec⟩
      · subst hdec
        simp [handleTraces, hct]
      · have hsel : handleTraces norm APIVersion.v03 ct dS dTj dTm
            = match (if ct == "application/msgpack" then dTm else dTj) with
              | none => some (errOut 500 "decoding-error\n")
              | some traces => (processTraces norm traces).map okOut := rfl
        rw [hsel, hdec]
    rw [hh, hsplitall, Option.map_some']
    rfl
  · intro spans u hu x hx y hy
    obtain ⟨id, hid, rfl⟩ := List.mem_map.mp hu
    have hxe : x.TraceID = id := by simpa using (List.mem_filter.mp hx).2
    have hye : y.TraceID = id := by simpa using (List.mem_filter.mp hy).2
    rw [hxe, hye]

/-- C3 witness: the trace `[7,7,8]` of Scenario C arriving on
`/v0.3/traces` as msgpack: 200 "OK\n", nothing forwarded, TracesDropped
1, SpansDropped 3. -/
theorem C3_mixed_trace_id_dropped_witness :
    handleTraces (fun s => some s) APIVersion.v03 "application/msgpack" none none
        (some [[spanT 7, spanT 7, spanT 8]])
      = some ⟨200, "OK\n", [], 3, 3, 0, 1⟩ := by
  have hmix : ¬ allSameTid [spanT 7, spanT 7, spanT 8] := by
    intro hall
    have := hall (spanT 8) (by simp) (spanT 7) (by simp)
    simp [spanT] at this
  obtain ⟨⟨st, hst, hh⟩, _⟩ := C3_mixed_trace_id_dropped (fun s => some s)
    APIVersion.v03 "application/msgpack" none none
    (some [[spanT 7, spanT 7, spanT 8]]) [] [] [spanT 7, spanT 7, spanT 8]
    (Or.inr ⟨rfl, rfl⟩) hmix
  have hz : st = ⟨0, 0, 0, 0, []⟩ := by
    have : processTraces (fun s => some s) ([] ++ []) = some ⟨0, 0, 0, 0, []⟩ := rfl
    rw [this] at hst
    exact ((Option.some.injEq _ _).mp hst).symm
  subst hz
  exact hh

theorem processTraces_counts (norm : Span → Option Span) (L : List (List Span))
    (st : RStats) (h : processTraces norm L = some st) :
    st.stotal = (st.forwarded.map List.length).sum + st.sdropped := by
  induction L generalizing st with
  | nil =>
    simp only [processTraces, Option.some.injEq] at h
    subst h
    simp
  | cons t ts ih =>
    simp only [processTraces] at h
    cases hd : processOneTrace norm t with
    | none => rw [hd] at h; exact absurd h (by simp)
    | some d =>
      rw [hd] at h
      cases hts : processTraces norm ts with
      | none => rw [hts] at h; exact absurd h (by simp)
      | some st' =>
        rw [hts] at h
        simp only [Option.some.injEq] at h
        subst h
        have hcount := processOneTrace_counts norm t d hd
        have hih := ih st' hts
        cases hfw : d.fw with
        | none =>
          rw [hfw] at hcount
          change d.stotal = 0 + d.sdropped at hcount
          simp only [TraceDelta.apply, hfw]
          omega
        | some o =>
          rw [hfw] at hcount
          change d.stotal = o.length + d.sdropped at hcount
          simp only [TraceDelta.apply, hfw]
          simp only [List.map_cons, List.sum_cons]
          omega

/-- C7: for every handled traces request, the addition to SpansReceived
equals the total length of the traces forwarded on the channel plus the
addition to SpansDropped, across all handling paths. -/
theorem C7_span_conservation (norm : Span → Option Span) (v : APIVersion)
    (ct : String) (dS : Option (List Span)) (dTj dTm : Option (List (List Span)))
    (out : HandlerOut) (h : handleTraces norm v ct dS dTj dTm = some out) :
    out.stotal = (out.forwarded.map List.length).sum + out.sdropped := by
  have herr : ∀ code msg, out = errOut code msg →
      out.stotal = (out.forwarded.map List.length).sum + out.sdropped := by
    intro code msg hout
    subst hout
    simp [errOut]
  have hok : ∀ L, processTraces norm L = some (⟨out.stotal, out.sdropped, out.ttotal,
      out.tdropped, out.forwarded⟩ : RStats) →
      out.stotal = (out.forwarded.map List.length).sum + out.sdropped := by
    intro L hL
    have := processTraces_counts norm L _ hL
    simpa using this
  cases v with
  | v01 =>
    by_cases hgate : jsonGate ct
    · cases dS with
      | none =>
        simp [handleTraces, hgate] at h
        exact herr 500 "decoding-error\n" h.symm
      | some spans =>
        obtain ⟨st, hst⟩ := Option.isSome_iff_exists.mp
          (processTraces_isSome norm (groupByTraceID spans))
        simp [handleTraces, hgate, hst] at h
        subst h
        refine hok (groupByTraceID spans) ?_
        rw [hst]
        rfl
    · simp [handleTraces, Bool.eq_false_iff.mpr hgate] at h
      exact herr 415 "decoding-error\n" h.symm
  | v02 =>
    by_cases hgate : jsonGate ct
    · cases dTj with
      | none =>
        simp [handleTraces, hgate] at h
        exact herr 500 "decoding-error\n" h.symm
      | some traces =>
        obtain ⟨st, hst⟩ := Option.isSome_iff_exists.mp
          (processTraces_isSome norm traces)
        simp [handleTraces, hgate, hst] at h
        subst h
        refine hok traces ?_
        rw [hst]
        rfl
    · simp [handleTraces, Bool.eq_false_iff.mpr hgate] at h
      exact herr 415 "decoding-error\n" h.symm
  | v03 =>
    have hsel : handleTraces norm APIVersion.v03 ct dS dTj dTm
        = match (if ct == "application/msgpack" then dTm else dTj) with
          | none => some (errOut 500 "decoding-error\n")
          | some traces => (processTraces norm traces).map okOut := rfl
    rw [hsel] at h
    rcases hdec : (if ct == "application/msgpack" then dTm else dTj) with _ | traces
    · rw [hdec] at h
      simp only [Option.some.injEq] at h
      exact herr 500 "decoding-error\n" h.symm
    · rw [hdec] at h
      change Option.map okOut (processTraces norm traces) = some out at h
      obtain ⟨st, hst⟩ := Option.isSome_iff_exists.mp
        (processTraces_isSome norm traces)
      rw [hst] at h
      simp only [Option.map_some', Option.some.injEq] at h
      subst h
      refine hok traces ?_
      rw [hst]
      rfl

/-- C7 witness: a one-trace request; 1 span received = 1 forwarded + 0
dropped. -/
theorem C7_span_conservation_witness :
    (⟨200, "OK\n", [[spanT 7]], 1, 0, 1, 0⟩ : HandlerOut).stotal
      = ((([[spanT 7]] : List (List Span)).map List.length).sum)
        + (⟨200, "OK\n", [[spanT 7]], 1, 0, 1, 0⟩ : HandlerOut).sdropped := by
  have h := C7_span_conservation (fun s => some s) APIVersion.v02 "" none
    (some [[spanT 7]]) none ⟨200, "OK\n", [[spanT 7]], 1, 0, 1, 0⟩ (by rfl)
  exact h

/-- C6: a v0.1 or v0.2 traces request whose Content-Type is none of
`application/json`, `text/json`, empty (for example
`application/msgpack`) is answered 415 and forwards nothing. -/
theorem C6_content_type_415 (norm : Span → Option Span) (v : APIVersion)
    (ct : String) (dS : Option (List Span)) (dTj dTm : Option (List (List Span)))
    (hv : v = APIVersion.v01 ∨ v = APIVersion.v02)
    (h1 : ct ≠ "application/json") (h2 : ct ≠ "text/json") (h3 : ct ≠ "") :
    handleTraces norm v ct dS dTj dTm
      = some ⟨415, "decoding-error\n", [], 0, 0, 0, 0⟩ := by
  have hg : jsonGate ct = false := by
    simp [jsonGate, h1, h2, h3]
  rcases hv with rfl | rfl <;> simp [handleTraces, hg, errOut]

/-- C6 witness: msgpack on `/v0.1/spans` gets 415 (Scenario E). -/
theorem C6_content_type_415_witness :
    handleTraces (fun s => some s) APIVersion.v01 "application/msgpack" none none none
      = some ⟨415, "decoding-error\n", [], 0, 0, 0, 0⟩ :=
  C6_content_type_415 (fun s => some s) APIVersion.v01 "application/msgpack"
    none none none (Or.inl rfl) (by decide) (by decide) (by decide)

/-- C10: on v0.1/v0.2, an empty or `text/json` Content-Type passes the
gate and the request is handled exactly as with `application/json`. -/
theorem C10_empty_ct_as_json (norm : Span → Option Span) (v : APIVersion)
    (ct : String) (dS : Option (List Span)) (dTj dTm : Option (List (List Span)))
    (hv : v = APIVersion.v01 ∨ v = APIVersion.v02)
    (hct : ct = "" ∨ ct = "text/json") :
    handleTraces norm v ct dS dTj dTm
      = handleTraces norm v "application/json" dS dTj dTm := by
  rcases hv with rfl | rfl <;> rcases hct with rfl | rfl <;> rfl

/-- C10 witness: empty Content-Type on v0.2 behaves as
`application/json`. -/
theorem C10_empty_ct_as_json_witness :
    handleTraces (fun s => some s) APIVersion.v02 "" none (some [[spanT 7]]) none
      = handleTraces (fun s => some s) APIVersion.v02 "application/json" none
          (some [[spanT 7]]) none :=
  C10_empty_ct_as_json (fun s => some s) APIVersion.v02 "" none (some [[spanT 7]])
    none (Or.inr rfl) (Or.inl rfl)

/-- ProcessResult is the observable outcome of `Agent.Process`: return
on an empty trace, return on a late trace, or dispatch of the processed
trace to `Concentrator.Add` and `Sampler.Add` (the two `go` calls at the
end of `Process`). -/
inductive ProcessResult (σ : Type) where
  | emptyDrop
  | lateDrop
  | dispatched (pt : ProcessedTrace σ)

/-- pinSublayersOnSpan — Modelled from the spec: `model.PinSublayersOnSpan`
is not under src/; the spec says it "attaches sublayers to the root's
metrics (`_sublayers.duration.by_type.<t>` etc.)", so it writes only the
span's Metrics field.  The encoding of sublayer values into metric
entries is the parameter `pinMetrics`. -/
def pinSublayersOnSpan {σ : Type}
    (pinMetrics : List (String × Nat) → List σ → List (String × Nat))
    (root : Span) (sublayers : List σ) : Span :=
  { root with Metrics := pinMetrics root.Metrics sublayers }

/-- Agent.Process mirrors `Agent.Process` of the orchestrator file: an
empty trace returns immediately; sublayers are computed and pinned on
the root; a trace whose (pinned) root ends before `now - cutoff` is
dropped; otherwise every span is quantized and the processed trace is
dispatched.  `getRoot` (`model.Trace.GetRoot`), `computeSublayers`
(`model.ComputeSublayers`), `getEnv` (`model.Trace.GetEnv`), `quantize`
(`quantizer.Quantize`) and `pinMetrics` live outside src/ and are
parameters; `now` is `model.Now()` and `cutoff` is
`conf.OldestSpanCutoff`.  Go's `root` pointer aliases a slice element,
which can make the dispatched Root reflect quantization; that aliasing
affects only the dispatched value, not which branch is taken. -/
def Agent.Process {σ : Type}
    (getRoot : List Span → Span)
    (computeSublayers : List Span → List σ)
    (pinMetrics : List (String × Nat) → List σ → List (String × Nat))
    (getEnv : List Span → String)
    (quantize : Span → Span)
    (now cutoff : Int) (t : List Span) : ProcessResult σ :=
  if t.length = 0 then ProcessResult.emptyDrop
  else if (pinSublayersOnSpan pinMetrics (getRoot t) (computeSublayers t)).End
      < now - cutoff then ProcessResult.lateDrop
  else
    ProcessResult.dispatched
      { Trace := t.map quantize
        Root := some (pinSublayersOnSpan pinMetrics (getRoot t) (computeSublayers t))
        Env := getEnv (t.map quantize)
        Sublayers := some (computeSublayers t) }

/-- C8: a non-empty trace whose root ends before `now - cutoff` is
dropped by `Agent.Process` before the dispatch step: the result is
`lateDrop`, so neither `Concentrator.Add` nor `Sampler.Add` is invoked,
no stats bucket is touched and nothing is staged for sampling.  Pinning
sublayers only rewrites the root's Metrics, so the root's end time used
by the check is the end time of `getRoot t`. -/
theorem C8_late_trace_dropped {σ : Type} (getRoot : List Span → Span)
    (computeSublayers : List Span → List σ)
    (pinMetrics : List (String × Nat) → List σ → List (String × Nat))
    (getEnv : List Span → String) (quantize : Span → Span)
    (now cutoff : Int) (t : List Span)
    (hne : t ≠ [])
    (hlate : (getRoot t).End < now - cutoff) :
    Agent.Process getRoot computeSublayers pinMetrics getEnv quantize now cutoff t
      = ProcessResult.lateDrop := by
  unfold Agent.Process
  rw [if_neg (by simpa [List.length_eq_zero] using hne)]
  rw [if_pos]
  show (pinSublayersOnSpan pinMetrics (getRoot t) (computeSublayers t)).End < now - cutoff
  exact hlate

/-- C8 witness: Scenario D shape — a root ending 60s before `now` with a
30s cutoff is dropped as late. -/
theorem C8_late_trace_dropped_witness :
    Agent.Process (σ := Unit) (fun l => l.headD default) (fun _ => [])
        (fun m _ => m) (fun _ => "") (fun s => s) 100 30 [spanT 1]
      = ProcessResult.lateDrop :=
  C8_late_trace_dropped (fun l => l.headD default) (fun _ => []) (fun m _ => m)
    (fun _ => "") (fun s => s) 100 30 [spanT 1] (by simp) (by decide)

/-- AgentPayload mirrors `model.AgentPayload` as the orchestrator builds
it: host name, default env, flushed stats, sampled traces.  The stats
bucket type is `β` as in the Concentrator; Go's zero value for the
struct literal `AgentPayload{HostName: ..., Env: ...}` has nil (empty)
Stats and Traces. -/
structure AgentPayload (β : Type) where
  HostName : String
  Env : String
  Stats : List β
  Traces : List (List Span)
  deriving Repr, DecidableEq

/-- TickAction enumerates the three observable actions of the
`flushTicker.C` branch of `Agent.Run`: the goroutine assigning
`p.Stats = a.Concentrator.Flush()`, the goroutine assigning
`p.Traces = a.Sampler.Flush()`, and the main goroutine's channel send
`a.Writer.inPayloads <- p`. -/
inductive TickAction where
  | flushStats
  | flushTraces
  | sendPayload
  deriving Repr, DecidableEq

/-- TickState is the shared state of the tick branch: the payload the
goroutines write into, and what has been sent on the Writer's channel. -/
structure TickState (β : Type) where
  p : AgentPayload β
  sent : Option (AgentPayload β)
  deriving Repr, DecidableEq

/-- tickStep performs one scheduled action: the flush goroutines write
their results into the shared payload; the send hands the Writer the
current value of `p` (Go sends the struct by value). -/
def tickStep {β : Type} (concFlushed : List β) (samplerFlushed : List (List Span))
    (st : TickState β) : TickAction → TickState β
  | TickAction.flushStats => { st with p := { st.p with Stats := concFlushed } }
  | TickAction.flushTraces => { st with p := { st.p with Traces := samplerFlushed } }
  | TickAction.sendPayload => { st with sent := some st.p }

/-- runTick runs the tick branch of `Agent.Run` under a schedule: the
payload starts as `AgentPayload{HostName: a.conf.HostName, Env:
a.conf.DefaultEnv}` and the three actions run in the scheduled order. -/
def runTick {β : Type} (host env : String) (concFlushed : List β)
    (samplerFlushed : List (List Span)) (sched : List TickAction) : TickState β :=
  sched.foldl (tickStep concFlushed samplerFlushed) ⟨⟨host, env, [], []⟩, none⟩

/-- tickSchedValid characterizes the interleavings the source permits:
each of the three actions runs exactly once, in any order.  `Agent.Run`
does `wg.Add(2)` and the goroutines call `wg.Done()`, but no `wg.Wait()`
is ever called before `a.Writer.inPayloads <- p`, so nothing orders the
send after the flush goroutines. -/
def tickSchedValid (sched : List TickAction) : Prop :=
  sched.Perm [TickAction.flushStats, TickAction.flushTraces, TickAction.sendPayload]

/-- C9 (refuting execution): with a concentrator holding one complete
bucket, the schedule running the main goroutine's send before the two
flush goroutines is a valid execution of the tick branch — the missing
`wg.Wait()` leaves the send unordered with the flushes — and it hands
the Writer a payload with the configured host and env but with empty
Stats and Traces, missing the bucket `Concentrator.Flush` returns.  The
flushes therefore need not finish before the payload reaches the
Writer, contradicting the claim. -/
theorem C9_tick_race :
    tickSchedValid [TickAction.sendPayload, TickAction.flushStats, TickAction.flushTraces]
  ∧ (Concentrator.Flush (β := Nat) ⟨[], 5, [(0, 7)]⟩ 12).1 = [7]
  ∧ (runTick "myhost" "myenv"
        (Concentrator.Flush (β := Nat) ⟨[], 5, [(0, 7)]⟩ 12).1 []
        [TickAction.sendPayload, TickAction.flushStats, TickAction.flushTraces]).sent
      = some ⟨"myhost", "myenv", [], []⟩ := by
  refine ⟨?_, by decide, rfl⟩
  show List.Perm _ _
  decide
